import Mathlib

/-!
# Verification of the zim task-list extraction pipeline

A shallow embedding of `zim/plugins/tasklist.py` (the task-extraction
pipeline and the query/filter engine) together with theorems settling the
specification claims about it.  Python strings become `String`, regular
expressions become explicit matching functions on character lists, the
SQLite table becomes a list of rows together with a fresh-id counter, and
the GTK tree model becomes a list of rows with parent pointers.  Python
exceptions (the `AttributeError` raised when `next_label_re` is `None`)
become `Except Unit`.
-/

namespace ZimTasklist

/-! ## String helpers mirroring the Python string/regex primitives -/

/-- Python's `needle in hay` substring test, on character lists. -/
def hasSub (hay needle : List Char) : Bool :=
  match hay with
  | [] => needle.isEmpty
  | _ :: t => needle.isPrefixOf hay || hasSub t needle

/-- Python's `needle in hay` substring test on strings. -/
def containsSub (hay needle : String) : Bool :=
  hasSub hay.toList needle.toList

/-- Python's `str.splitlines` (modelling only `\n` as a line terminator):
splits on newlines; a trailing newline does not produce an empty final
element, and the empty string yields no lines. -/
def pySplitlines (s : String) : List String :=
  if s.isEmpty then []
  else
    let parts := s.splitOn "\n"
    if s.endsWith "\n" then parts.dropLast else parts

/-- Python's `str.lower()` (ASCII model). -/
def strLower (s : String) : String :=
  String.mk (s.toList.map Char.toLower)

/-- Python's `str.strip(':')`: remove leading and trailing colons. -/
def pyStripColon (s : String) : String :=
  String.mk (((s.toList.dropWhile (fun c => c == ':')).reverse.dropWhile
    (fun c => c == ':')).reverse)

/-- Python's `str.split()` with no argument: split on whitespace runs,
dropping empty pieces. -/
def pySplitWs (s : String) : List String :=
  (s.split Char.isWhitespace).filter (fun w => !w.isEmpty)

/-- A character matched by the regex class `\w` (ASCII model). -/
def isWordChar (c : Char) : Bool :=
  c.isAlphanum || c == '_'

/-- Truthiness of an optional integer in Python (`None` and `0` are falsy),
as used for the inherited default priority. -/
def optNatTruthy : Option Nat → Bool
  | none => false
  | some n => n != 0

/-- Truthiness of an optional string in Python (`None` and `""` are falsy),
as used for the inherited default date. -/
def optStrTruthy : Option String → Bool
  | none => false
  | some s => !s.isEmpty

/-! ## Constants from the source -/

/-- Constant `_NO_DATE = '9999'`: sentinel for an empty due date. -/
def NO_DATE : String := "9999"

/-- Constant `_NO_TAGS = '__no_tags__'`: the synthetic "no tags" tag. -/
def NO_TAGS : String := "__no_tags__"

/-! ## Tag and label regexes

`tag_re = re.compile(r'(?<!\S)@(\w+)\b')` and the label regexes built in
`_set_preferences`. -/

/-- Model of `tag_re.findall`: all `@word` tokens preceded by whitespace or the
start of the string; the captured group is the word without the `@`.
The `okPrev` flag records whether the previous character allows a match
(`(?<!\S)`). -/
def tagScan (okPrev : Bool) : List Char → List String
  | [] => []
  | c :: rest =>
    if c == '@' && okPrev then
      let w := rest.takeWhile isWordChar
      if w.isEmpty then tagScan false rest
      else String.mk w :: tagScan false (rest.drop w.length)
    else tagScan c.isWhitespace rest
  termination_by cs => cs.length
  decreasing_by
    · simp
    · simp only [List.length_cons, List.length_drop]
      omega
    · simp

/-- All tags found in a description (`tag_re.findall(description)`). -/
def tagFindall (s : String) : List String :=
  tagScan true s.toList

/-- Match of one task label at the start of the text, with the negative
lookahead `(?!\w)`: the label is a prefix of the text and is not followed
by a word character. -/
def labelMatch (l : String) (text : String) : Bool :=
  l.toList.isPrefixOf text.toList &&
  (match text.toList.drop l.toList.length with
   | [] => true
   | c :: _ => !isWordChar c)

/-- Model of `task_label_re.match(text)`: the regex `^(l1|l2|...)(?!\w)` built from
the configured labels. -/
def taskLabelMatch (labels : List String) (text : String) : Bool :=
  labels.any (fun l => labelMatch l text)

/-- Model of `next_label_re.match(text)` for a configured next label `nl`: the
regex `^<nl>:?\s+` — the label, an optional colon, then at least one
whitespace character (with the regex engine's backtracking on `:?`). -/
def nextLabelMatch (nl : String) (text : String) : Bool :=
  nl.toList.isPrefixOf text.toList &&
  (match text.toList.drop nl.toList.length with
   | ':' :: c :: _ => c.isWhitespace
   | c :: _ => c.isWhitespace
   | [] => false)

/-! ## The date directive regex `date_re = re.compile(r'\s*\[d:(.+)\]')`

`re.sub` with this pattern finds the leftmost match: optional leading
whitespace, then the literal `[d:`, then (greedy `.+`, which does not
cross a newline) everything up to the **last** `]` on the same line. -/

/-- Split a segment at its last `]`: returns the characters before it and
after it, or `none` when the segment has no `]`. -/
def lastCloseSplit : List Char → Option (List Char × List Char)
  | [] => none
  | c :: rest =>
    match lastCloseSplit rest with
    | some (v, after) => some (c :: v, after)
    | none => if c == ']' then some ([], rest) else none

/-- Find the leftmost `date_re` match.  `accRev` is the already-scanned
text in reverse.  Returns `(before, matched, after)` where `matched` is
the full match (`group(0)`, including the leading whitespace that `\s*`
consumed and the surrounding `[d:`…`]`). -/
def dateFindAux (accRev : List Char) : List Char → Option (List Char × List Char × List Char)
  | [] => none
  | c :: rest =>
    match c, rest with
    | '[', 'd' :: ':' :: rest2 =>
      let line := rest2.takeWhile (fun x => x != '\n')
      let lineRest := rest2.dropWhile (fun x => x != '\n')
      (match lastCloseSplit line with
       | some (v, afterInLine) =>
         if v.isEmpty then dateFindAux (c :: accRev) rest
         else
           let wsRev := accRev.takeWhile Char.isWhitespace
           let beforeRev := accRev.dropWhile Char.isWhitespace
           some (beforeRev.reverse,
                 wsRev.reverse ++ '[' :: 'd' :: ':' :: (v ++ [']']),
                 afterInLine ++ lineRest)
       | none => dateFindAux (c :: accRev) rest)
    | _, _ => dateFindAux (c :: accRev) rest

/-- Leftmost match of `date_re` in a text. -/
def dateFind (cs : List Char) : Option (List Char × List Char × List Char) :=
  dateFindAux [] cs

/-! ## `parse_date` (external collaborator)

Modelled from the spec: `parse_date` comes from `zim.parsing`, which is
not part of the source under verification.  Per the spec the directive
value is "parsed into a calendar date", returning no value on failure;
since the source passes the whole match `group(0)` (including the
`[d:`…`]` wrapper) the parser must search its argument for a date.  We
model it as a search for the first `y-m-d` digit group. -/

/-- Numeric value of a digit run. -/
def digitsVal (ds : List Char) : Nat :=
  ds.foldl (fun a c => a * 10 + (c.toNat - 48)) 0

/-- Modelled from the spec: try to read `digits-digits-digits` (a
`y-m-d` calendar date) at the head of the character list. -/
def tryDateAt (cs : List Char) : Option (Nat × Nat × Nat) :=
  let d1 := cs.takeWhile Char.isDigit
  if d1.isEmpty || decide (4 < d1.length) then none
  else
    match cs.drop d1.length with
    | '-' :: r1 =>
      let d2 := r1.takeWhile Char.isDigit
      if d2.isEmpty || decide (2 < d2.length) then none
      else
        match r1.drop d2.length with
        | '-' :: r2 =>
          let d3 := r2.takeWhile Char.isDigit
          if d3.isEmpty || decide (2 < d3.length) then none
          else some (digitsVal d1, digitsVal d2, digitsVal d3)
        | _ => none
    | _ => none

/-- Modelled from the spec: scan for the first parsable date. -/
def scanDate : List Char → Option (Nat × Nat × Nat)
  | [] => none
  | c :: rest =>
    match tryDateAt (c :: rest) with
    | some ymd => some ymd
    | none => scanDate rest

/-- Modelled from the spec: `zim.parsing.parse_date`, returning
`(year, month, day)` or `none` when the string holds no date. -/
def parse_date (s : String) : Option (Nat × Nat × Nat) :=
  scanDate s.toList

/-- Zero-padded decimal rendering, for `'%04i-%02i-%02i' % mydate`. -/
def padNum (w : Nat) (n : Nat) : String :=
  let s := toString n
  String.mk (List.replicate (w - s.length) '0') ++ s

/-- Formatting `'%04i-%02i-%02i' % (y, m, d)`. -/
def fmtDate : Nat × Nat × Nat → String
  | (y, m, d) => padNum 4 y ++ "-" ++ padNum 2 m ++ "-" ++ padNum 2 d

/-- Model of `date_re.sub(set_date, text)` together with the `date` state variable
of `_parse_task`'s closure: repeatedly find the leftmost match; the first
match whose value parses as a date (while no date is set yet) is replaced
by the empty string and sets the date; every other match is left verbatim.
The fuel argument bounds the number of matches (each match consumes at
least one character, so the text length suffices). -/
def dateSubAux : Nat → Option (Nat × Nat × Nat) → List Char →
    Option (Nat × Nat × Nat) × List Char
  | 0, st, cs => (st, cs)
  | fuel + 1, st, cs =>
    match dateFind cs with
    | none => (st, cs)
    | some (before, matched, after) =>
      match parse_date (String.mk matched), st with
      | some ymd, none =>
        let r := dateSubAux fuel (some ymd) after
        (r.1, before ++ r.2)
      | _, _ =>
        let r := dateSubAux fuel st after
        (r.1, before ++ matched ++ r.2)

/-- The date extraction performed by `_parse_task` on a text. -/
def date_sub (cs : List Char) : Option (Nat × Nat × Nat) × List Char :=
  dateSubAux cs.length none cs

/-! ## Parse-tree data model

The input of `_extract_tasks` is a parse tree in ElementTree style: each
node has a tag, optional text, children (each carrying its tail text) and,
for `li` nodes, a `bullet` attribute.  The bullet constants
`UNCHECKED_BOX`, `CHECKED_BOX`, `XCHECKED_BOX` and the plain bullet come
from `zim.formats`; only their identities matter here. -/

/-- The bullet kinds of a list item. -/
inductive Bullet where
  | uncheckedBox
  | checkedBox
  | xcheckedBox
  | star
deriving DecidableEq, Repr

/-- An ElementTree-style node: tag, `bullet` attribute (for `li`), text,
children, and tail text following the node. -/
inductive XNode where
  | mk (tag : String) (bullet : Option Bullet) (text : String)
       (children : List XNode) (tail : String)

/-- The node's tag. -/
def XNode.tag : XNode → String
  | .mk t _ _ _ _ => t

/-- The node's `bullet` attribute (`node.get('bullet')`). -/
def XNode.bullet : XNode → Option Bullet
  | .mk _ b _ _ _ => b

/-- The node's text (`node.text or ''`). -/
def XNode.text : XNode → String
  | .mk _ _ t _ _ => t

/-- The node's children. -/
def XNode.children : XNode → List XNode
  | .mk _ _ _ cs _ => cs

/-- The node's tail text (`node.tail or ''`). -/
def XNode.tail : XNode → String
  | .mk _ _ _ _ tl => tl

/-- An item of the flattened paragraph: either a normal text line or a
`(bullet, indent level, text)` tuple for a list entry. -/
inductive Item where
  | line (s : String)
  | entry (bullet : Option Bullet) (level : Nat) (text : String)
deriving DecidableEq

mutual

/-- Model of `_flatten(node)`: the node's text followed by every child's flattened
text and tail. -/
def flatten : XNode → String
  | .mk _ _ t cs _ => t ++ flattenChildren cs

/-- The children part of `_flatten`. -/
def flattenChildren : List XNode → String
  | [] => ""
  | c :: rest => flatten c ++ c.tail ++ flattenChildren rest

end

mutual

/-- Model of `_flatten_list(list, list_level)`: a nested `ul` is recursed into with
the level incremented; an `li` produces one entry tuple; anything else is
silently ignored. -/
def flatten_list : XNode → Nat → List Item
  | .mk _ _ _ children _, list_level => flattenListNodes children list_level

/-- The loop body of `_flatten_list` over the list node's children. -/
def flattenListNodes : List XNode → Nat → List Item
  | [], _ => []
  | n :: rest, lvl =>
    (if n.tag == "ul" then flatten_list n (lvl + 1)
     else if n.tag == "li" then [Item.entry n.bullet lvl (flatten n)]
     else []) ++ flattenListNodes rest lvl

end

/-- Model of `_flatten_para(para)`: accumulate running text; a `strike` child is
skipped entirely (content and tail); a `ul`/`ol` child flushes the
accumulated text as lines, emits the flattened list, and restarts the
accumulator from the list's tail; any other child contributes its
flattened text and tail. -/
def flatten_para (para : XNode) : List Item :=
  let step := fun (acc : List Item × String) (child : XNode) =>
    if child.tag == "strike" then acc
    else if child.tag == "ul" || child.tag == "ol" then
      let items := if acc.2.isEmpty then acc.1
                   else acc.1 ++ (pySplitlines acc.2).map Item.line
      (items ++ flatten_list child 0, child.tail)
    else (acc.1, acc.2 ++ flatten child ++ child.tail)
  let r := para.children.foldl step ([], para.text)
  if r.2.isEmpty then r.1 else r.1 ++ (pySplitlines r.2).map Item.line

/-! ## Task fields and the task forest -/

/-- The 5-tuple returned by `_parse_task`:
`(open, actionable, prio, due, description)`. -/
structure TaskFields where
  isopen : Bool
  actionable : Bool
  prio : Nat
  due : String
  description : String
deriving DecidableEq, Repr

/-- One node of the nested task list built by `_extract_tasks`: the
2-tuple of a task's fields and its list of child tasks. -/
inductive TaskNode where
  | mk (fields : TaskFields) (children : List TaskNode)

/-- The fields of a task node. -/
def TaskNode.fields : TaskNode → TaskFields
  | .mk f _ => f

/-- The children of a task node. -/
def TaskNode.children : TaskNode → List TaskNode
  | .mk _ cs => cs

/-! ## Plugin configuration

The relevant state set up by `_set_preferences`: `all_checkboxes`,
`task_labels` (with the next label appended when configured), and
`next_label_re`, which is `None` when the `next_label` preference is
empty. -/

/-- The parsing-relevant plugin configuration. -/
structure Config where
  all_checkboxes : Bool
  task_labels : List String
  next_label_re : Option String

/-- The `next_label_re` computed by `_set_preferences` from the
`next_label` preference: compiled when the preference is truthy (a
non-empty string), otherwise `None`. -/
def set_next_label (pref : String) : Option String :=
  if !pref.isEmpty then some pref else none

/-! ## `_parse_task` -/

/-- Model of `_parse_task(text, open, tags, defaultdate, defaultprio, tasks)`.
Counts `!` for the priority (falling back to the inherited default when
the count is zero and the default is truthy); appends missing global tags;
extracts the first parsable `[d:...]` directive (falling back to the
inherited default date, else the sentinel); then decides actionability:
a text matching the next-label pattern is actionable unless the last
preceding sibling task is still open.  When `next_label_re` is `None` the
attribute access `.match` raises — modelled as `Except.error`. -/
def parse_task (cfg : Config) (text : String) (isopen : Bool)
    (tags : List String) (defaultdate : Option String)
    (defaultprio : Option Nat) (tasks : List TaskNode) :
    Except Unit TaskFields :=
  let prio0 := text.toList.count '!'
  let prio := if optNatTruthy defaultprio && (prio0 == 0)
              then defaultprio.getD 0 else prio0
  let text1 := tags.foldl
    (fun t tag => if containsSub t tag then t else t ++ " " ++ tag) text
  let r := date_sub text1.toList
  let text2 := String.mk r.2
  let date := match r.1 with
    | some ymd => fmtDate ymd
    | none => NO_DATE
  let date := if optStrTruthy defaultdate && (date == NO_DATE)
              then defaultdate.getD "" else date
  match cfg.next_label_re with
  | none => Except.error ()
  | some nl =>
    let actionable :=
      if nextLabelMatch nl text2 then
        match tasks.getLast? with
        | some t => !t.fields.isopen
        | none => true
      else true
    Except.ok ⟨isopen, actionable, prio, date, text2⟩

/-! ## `_extract_tasks` — the tree builder

The Python loop keeps a stack of `(level, task, children)` triples whose
`children` lists are mutated in place; pushed tasks are appended to their
parent's (or the top-level) list immediately.  The functional embedding
keeps each in-progress frame's children in the frame and attaches the
completed node to its parent when the frame is popped; since a frame is
popped before any same-or-shallower item is handled, the visible contents
of each target list at every `_parse_task` call are identical. -/

/-- One stack frame: the indent level, the task's parsed fields, and the
children accumulated so far. -/
structure Frame where
  level : Nat
  fields : TaskFields
  children : List TaskNode

/-- The tree builder's state: completed top-level tasks plus the stack of
open frames (head = top of stack). -/
structure EState where
  tasks : List TaskNode
  stack : List Frame

/-- The continuation of the pop loop once the top frame has been popped:
the completed `node` is attached to the next frame (which may itself have
to pop, completing in turn) or, with an empty stack, to the top level. -/
def popPush (l : Nat) (tasks : List TaskNode) (node : TaskNode) :
    List Frame → EState
  | [] => ⟨tasks ++ [node], []⟩
  | g :: rest =>
    if l ≤ g.level then
      popPush l tasks (TaskNode.mk g.fields (g.children ++ [node])) rest
    else ⟨tasks, ⟨g.level, g.fields, g.children ++ [node]⟩ :: rest⟩

/-- Model of `while stack and stack[-1][LEVEL] >= list_level: stack.pop()`,
attaching each completed frame to its parent (or the top level). -/
def popToLevel (l : Nat) : EState → EState
  | ⟨tasks, []⟩ => ⟨tasks, []⟩
  | ⟨tasks, f :: rest⟩ =>
    if l ≤ f.level then popPush l tasks (TaskNode.mk f.fields f.children) rest
    else ⟨tasks, f :: rest⟩

/-- Membership test `bullet in (UNCHECKED_BOX, CHECKED_BOX, XCHECKED_BOX)`. -/
def isBox : Option Bullet → Bool
  | some .uncheckedBox => true
  | some .checkedBox => true
  | some .xcheckedBox => true
  | _ => false

/-- The task test of the tree builder: a checkbox bullet in a task-list
paragraph (or with the `all_checkboxes` preference), or a text matching a
configured label. -/
def isTaskEntry (cfg : Config) (istasklist : Bool) (bullet : Option Bullet)
    (text : String) : Bool :=
  (isBox bullet && (istasklist || cfg.all_checkboxes)) ||
  (!cfg.task_labels.isEmpty && taskLabelMatch cfg.task_labels text)

/-- One step of the `for item in lines` loop of `_extract_tasks`. -/
def processItem (cfg : Config) (istasklist : Bool) (globaltags : List String)
    (defaultdate : Option String) (st : EState) :
    Item → Except Unit EState
  | Item.entry bullet list_level text =>
    let st := popToLevel list_level st
    if isTaskEntry cfg istasklist bullet text then
      let dp : Option String × Option Nat :=
        match st.stack with
        | f :: _ =>
          (if f.fields.due == NO_DATE then defaultdate else some f.fields.due,
           some f.fields.prio)
        | [] => (defaultdate, none)
      let isopen := !(bullet == some Bullet.checkedBox || bullet == some Bullet.xcheckedBox)
      let mytasks := match st.stack with
        | f :: _ => f.children
        | [] => st.tasks
      match parse_task cfg text isopen globaltags dp.1 dp.2 mytasks with
      | .error e => .error e
      | .ok fields => .ok ⟨st.tasks, ⟨list_level, fields, []⟩ :: st.stack⟩
    else .ok st
  | Item.line s =>
    let st := popToLevel 0 st
    if !cfg.task_labels.isEmpty && taskLabelMatch cfg.task_labels s then
      match parse_task cfg s true globaltags defaultdate none st.tasks with
      | .error e => .error e
      | .ok fields => .ok ⟨st.tasks ++ [TaskNode.mk fields []], st.stack⟩
    else .ok st

/-- The all-or-nothing task-list-header tag scan: all words after the
label must be `@tags`, otherwise the collected tags are discarded. -/
def headerTags (words : List String) : Option (List String) :=
  if words.all (fun w => w.startsWith "@") then some words else none

/-- Processing of one paragraph by `_extract_tasks`: flatten, detect a
task-list header on the first line, then run the item loop starting from
an empty stack, finally flushing the remaining frames. -/
def processPara (cfg : Config) (defaultdate : Option String)
    (tasks0 : List TaskNode) (para : XNode) : Except Unit (List TaskNode) :=
  let lines := flatten_para para
  let hdr : List Item × Bool × List String :=
    match lines with
    | Item.line l0 :: Item.entry b lv t :: rest =>
      if !cfg.task_labels.isEmpty && taskLabelMatch cfg.task_labels l0 then
        match headerTags ((pySplitWs (pyStripColon l0)).drop 1) with
        | some gts => (Item.entry b lv t :: rest, true, gts)
        | none => (lines, false, [])
      else (lines, false, [])
    | _ => (lines, false, [])
  match hdr.1.foldlM (processItem cfg hdr.2.1 hdr.2.2 defaultdate)
      (⟨tasks0, []⟩ : EState) with
  | .error e => .error e
  | .ok st => .ok (popToLevel 0 st).tasks

/-- Model of `_extract_tasks(parsetree, defaultdate)`: the nested list of tasks
found in the tree's paragraphs. -/
def extract_tasks (cfg : Config) (paras : List XNode)
    (defaultdate : Option String) : Except Unit (List TaskNode) :=
  paras.foldlM (processPara cfg defaultdate) []

/-! ## The task store — the `tasklist` SQLite table

A row of the table; `id` is the SQLite autoincrement primary key, `source`
the page id, `parent` the parent row id (`0` for top level). -/

/-- One row of the `tasklist` table. -/
structure TaskRow where
  id : Nat
  source : Nat
  parent : Nat
  haschildren : Bool
  isopen : Bool
  actionable : Bool
  prio : Nat
  due : String
  description : String
deriving DecidableEq, Repr

/-- The table with its autoincrement counter (`lastrowid` becomes
`nextid - 1` after an insert; fresh ids are `≥ 1`). -/
structure Store where
  nextid : Nat
  rows : List TaskRow

/-- Model of `_insert(page, parentid, children)`: depth-first insertion of a task
forest; each row's `haschildren` is `bool(grandchildren)` and each child
is inserted with `parent = lastrowid` of its parent row. -/
def insertForest (page : Nat) : Nat → List TaskNode → Store → Store
  | _, [], s => s
  | parentid, TaskNode.mk f gc :: rest, s =>
    let id := s.nextid
    let row : TaskRow :=
      ⟨id, page, parentid, !gc.isEmpty, f.isopen, f.actionable, f.prio,
       f.due, f.description⟩
    let s1 : Store := ⟨id + 1, s.rows ++ [row]⟩
    let s2 := if gc.isEmpty then s1 else insertForest page id gc s1
    insertForest page parentid rest s2
  termination_by _ children _ => sizeOf children

/-- Model of `remove_page`: `delete from tasklist where source=?`, in its own
committed transaction, returning whether any row was deleted
(`cursor.rowcount > 0`). -/
def removeRows (s : Store) (pid : Nat) : Store × Bool :=
  (⟨s.nextid, s.rows.filter (fun r => r.source != pid)⟩,
   s.rows.any (fun r => r.source == pid))

/-- The store interaction of `index_page`: first `remove_page` runs (and
commits) its delete, then — if any tasks were extracted — the new forest
is inserted inside a single separate commit.  `insert_ok` models the
outcome of that insert transaction: when it fails it rolls back wholly,
leaving the state produced by the already-committed delete. -/
def index_page (s : Store) (pid : Nat) (forest : List TaskNode)
    (insert_ok : Bool) : Store :=
  let s1 := (removeRows s pid).1
  if !forest.isEmpty then
    if insert_ok then insertForest pid 0 forest s1 else s1
  else s1

/-- Query `childrenOf`: the rows whose `parent` is the given id
(`select * from tasklist where parent=?`). -/
def childrenOf (s : Store) (i : Nat) : List TaskRow :=
  s.rows.filter (fun r => r.parent == i)

/-- The `hasChildren` store invariant: a row's `haschildren` flag is set
iff some row has it as parent. -/
def storeInv (s : Store) : Prop :=
  ∀ r ∈ s.rows, r.haschildren = !(childrenOf s r.id).isEmpty

/-- Store well-formedness: ids are positive and below the counter, and
parent references are below the counter as well. -/
def storeWF (s : Store) : Prop :=
  1 ≤ s.nextid ∧ ∀ r ∈ s.rows, 1 ≤ r.id ∧ r.id < s.nextid ∧ r.parent < s.nextid

/-! ## The query/filter engine — `TaskListTreeView`

The GTK tree model becomes a list of rows (in the model's depth-first
order, so every row's ancestors occur earlier in the list) with explicit
parent pointers (`0` = top level), and the visibility column becomes a
`Nat → Bool` map from row id to visibility. -/

/-- One row of the tree model, with the columns read by `_filter_item`
plus the tree structure (`taskid` = TASKID_COL, `parent` = the parent
row's task id, `0` for a top-level row). -/
structure ModelRow where
  taskid : Nat
  parent : Nat
  isopen : Bool
  actionable : Bool
  prio : Nat
  task_col : String
  due : String
  page_col : String
  tags : List String
deriving DecidableEq, Repr

/-- The view's filter state: `filter_actionable`, `label_filter`,
`tag_filter` and the text `filter` (an `(inverse, needle)` pair). -/
structure FilterState where
  filter_actionable : Bool
  label_filter : Option (List String)
  tag_filter : Option (List String)
  filter : Option (Bool × String)

/-- Model of `set_tag_filter(tags, labels)`: both filters are lowercased; an empty
(falsy) argument clears the filter. -/
def set_tag_filter (tags labels : List String) :
    Option (List String) × Option (List String) :=
  (if tags.isEmpty then none else some (tags.map strLower),
   if labels.isEmpty then none else some (labels.map strLower))

/-- Truthiness of an optional list in Python (`None` and `[]` falsy). -/
def optListTruthy : Option (List String) → Bool
  | none => false
  | some l => !l.isEmpty

/-- Model of `_filter_item(modelrow)`: open/actionable gate, then label filter
(substring of the lowercased description), then tag filter (the no-tags
marker matches an untagged row, otherwise any filter tag must occur
literally among the row's tags), then the text filter (substring of the
lowercased description or page name, possibly negated). -/
def filter_item (st : FilterState) (row : ModelRow) : Bool :=
  let visible := !(!row.isopen || (!row.actionable && st.filter_actionable))
  let description := strLower row.task_col
  let pagename := strLower row.page_col
  let visible :=
    if visible && optListTruthy st.label_filter then
      (st.label_filter.getD []).any (fun l => containsSub description l)
    else visible
  let visible :=
    if visible && optListTruthy st.tag_filter then
      let tf := st.tag_filter.getD []
      (tf.contains NO_TAGS && row.tags.isEmpty) ||
        tf.any (fun t => row.tags.contains t)
    else visible
  let visible :=
    if visible && st.filter.isSome then
      let f := st.filter.getD (false, "")
      let m := containsSub description f.2 || containsSub pagename f.2
      !((!f.1 && !m) || (f.1 && m))
    else visible
  visible

/-- Look up a model row by task id (iterator from id). -/
def rowById (rows : List ModelRow) (i : Nat) : Option ModelRow :=
  rows.find? (fun r => r.taskid == i)

/-- The `while parent: model[parent][VIS_COL] = visible; parent =
model.iter_parent(parent)` loop of `_eval_filter`, marking the whole
ancestor chain visible.  The chain is walked with fuel; since parent ids
are strictly smaller than child ids, fuel equal to the starting id
suffices. -/
def markUp (rows : List ModelRow) : Nat → (Nat → Bool) → Nat → (Nat → Bool)
  | 0, vis, _ => vis
  | fuel + 1, vis, pid =>
    match rowById rows pid with
    | none => vis
    | some pr => markUp rows fuel (fun j => if j = pid then true else vis j) pr.parent

/-- The ancestor id chain starting at `pid` (the ids set by `markUp`). -/
def ancestors (rows : List ModelRow) : Nat → Nat → List Nat
  | 0, _ => []
  | fuel + 1, pid =>
    match rowById rows pid with
    | none => []
    | some pr => pid :: ancestors rows fuel pr.parent

/-- One step of the `foreach(filter)` pass of `_eval_filter`: write the
row's base visibility, and when it is visible mark all its ancestors
visible. -/
def evalStep (fs : FilterState) (rows : List ModelRow) (vis : Nat → Bool)
    (r : ModelRow) : Nat → Bool :=
  let b := filter_item fs r
  let vis1 := fun j => if j = r.taskid then b else vis j
  if b then markUp rows r.parent vis1 r.parent else vis1

/-- Model of `_eval_filter`: `self.real_model.foreach(filter)` over the rows in
model (depth-first) order. -/
def eval_filter (fs : FilterState) (rows : List ModelRow) : Nat → Bool :=
  rows.foldl (evalStep fs rows) (fun _ => false)

/-- The tree-model well-formedness used by the visibility theorems:
every row's parent either is `0` (top level) or has already appeared —
this is the depth-first order in which `_append_tasks` fills the model. -/
def parentSeenB (seen : List Nat) : List ModelRow → Bool
  | [] => true
  | r :: rest =>
    (r.parent == 0 || seen.contains r.parent) && parentSeenB (r.taskid :: seen) rest

instance (s : Store) : Decidable (storeInv s) := by
  unfold storeInv; infer_instance

instance (s : Store) : Decidable (storeWF s) := by
  unfold storeWF; infer_instance

/-! ## Concrete fixtures used by the witnesses and counterexamples -/

/-- The default configuration: `all_checkboxes` on, labels `FIXME`,
`TODO` plus the next label `Next:` appended, `next_label_re` compiled. -/
def fxCfg : Config := ⟨true, ["FIXME", "TODO", "Next:"], some "Next:"⟩

/-- A configuration whose `next_label` preference is empty. -/
def fxCfgNoNext : Config := ⟨true, ["FIXME", "TODO"], set_next_label ""⟩

/-- An `li` node with the given bullet and text. -/
def liNode (b : Bullet) (s : String) : XNode :=
  XNode.mk "li" (some b) s [] ""

/-- A `ul` node with the given children. -/
def ulNode (cs : List XNode) : XNode :=
  XNode.mk "ul" none "" cs ""

/-- A `p` node with the given children. -/
def pNode (cs : List XNode) : XNode :=
  XNode.mk "p" none "" cs ""

/-- A paragraph with a non-task plain bullet whose nested entry is an
unchecked checkbox. -/
def fxNonTaskPara : XNode :=
  pNode [ulNode [liNode Bullet.star "just a note",
                 ulNode [liNode Bullet.uncheckedBox "do stuff"]]]

/-- Siblings: open checkbox `task A`, closed checkbox `task B`, then the
open `Next: task C`. -/
def fxSiblingPara : XNode :=
  pNode [ulNode [liNode Bullet.uncheckedBox "task A",
                 liNode Bullet.checkedBox "task B",
                 liNode Bullet.uncheckedBox "Next: task C"]]

/-- Siblings `Next: task A` (open) and `Next: task B` (open). -/
def fxNextBothOpen : XNode :=
  pNode [ulNode [liNode Bullet.uncheckedBox "Next: task A",
                 liNode Bullet.uncheckedBox "Next: task B"]]

/-- Siblings `Next: task A` (closed) and `Next: task B` (open). -/
def fxNextAClosed : XNode :=
  pNode [ulNode [liNode Bullet.checkedBox "Next: task A",
                 liNode Bullet.uncheckedBox "Next: task B"]]

/-- An open task node with the given description. -/
def fxOpenNode (d : String) : TaskNode :=
  TaskNode.mk ⟨true, true, 0, NO_DATE, d⟩ []

/-- A stored row belonging to page 5. -/
def fxOldRow : TaskRow :=
  ⟨1, 5, 0, false, true, true, 0, "9999", "old task"⟩

/-- A store holding one row for page 5. -/
def fxStore : Store := ⟨2, [fxOldRow]⟩

/-- A model row carrying the (case-preserving) tag `Urgent`. -/
def fxRowUrgent : ModelRow :=
  ⟨1, 0, true, true, 0, "buy milk @Urgent", "9999", "page", ["Urgent"]⟩

/-- A model row with no tags. -/
def fxRowNoTags : ModelRow :=
  ⟨2, 0, true, true, 0, "buy milk", "9999", "page", []⟩

/-- A three-level model: root, child, grandchild; only the grandchild's
description contains `match`. -/
def fxDeepRows : List ModelRow :=
  [⟨1, 0, true, true, 0, "root", "9999", "pg", []⟩,
   ⟨2, 1, true, true, 0, "child", "9999", "pg", []⟩,
   ⟨3, 2, true, true, 0, "grand match", "9999", "pg", []⟩]

/-- A text filter matching only `match`. -/
def fxDeepFs : FilterState := ⟨false, none, none, some (false, "match")⟩

/-- A two-level forest used by the store witnesses. -/
def fxForest : List TaskNode :=
  [TaskNode.mk ⟨true, true, 0, "9999", "a"⟩
     [TaskNode.mk ⟨true, true, 0, "9999", "b"⟩ []],
   TaskNode.mk ⟨false, true, 0, "9999", "c"⟩ []]

/-- Whether an `Except` computation succeeded. -/
def exceptOk {ε α : Type _} : Except ε α → Bool
  | .ok _ => true
  | .error _ => false

/-! # Theorems -/

/-- Claim C9: in the Flattener, a struck-through inline child contributes
neither its own content nor its tail text to the flattened output: a
paragraph with a `strike` child flattens to exactly the output of the same
paragraph with the struck child (content and tail) deleted, so the text
following the struck span up to the next child never appears. -/
theorem c9_strike_tail_omitted (tag : String) (pb : Option Bullet)
    (ptext : String) (pre post : List XNode) (ptail : String)
    (sb : Option Bullet) (stext : String) (schildren : List XNode)
    (stail : String) :
    flatten_para (XNode.mk tag pb ptext
      (pre ++ XNode.mk "strike" sb stext schildren stail :: post) ptail) =
    flatten_para (XNode.mk tag pb ptext (pre ++ post) ptail) := by
  simp only [flatten_para, XNode.children, XNode.text, List.foldl_append,
    List.foldl_cons, XNode.tag]
  simp

/-- Claim C7: the parsed priority is the count of `!` characters in the
text; when that count is zero the inherited default priority (if any) is
used instead.  (A supplied default of `0` is falsy in the source and thus
not substituted, but the resulting priority is `0` either way, which the
`Option.getD 0` on the right-hand side captures.) -/
theorem c7_priority_count (cfg : Config) (nl : String)
    (h : cfg.next_label_re = some nl) :
    ∀ (text : String) (isopen : Bool) (tags : List String)
      (dd : Option String) (dp : Option Nat) (tks : List TaskNode),
      (parse_task cfg text isopen tags dd dp tks).map TaskFields.prio =
        Except.ok (if text.toList.count '!' = 0 then dp.getD 0
                   else text.toList.count '!') := by
  intro text isopen tags dd dp tks
  simp only [parse_task, h, Except.map]
  cases dp with
  | none => simp [optNatTruthy]; split <;> simp_all
  | some n =>
    by_cases hn : n = 0 <;> by_cases hp : text.toList.count '!' = 0 <;>
      simp [optNatTruthy, hn, hp] <;> split <;> simp_all

/-- Witness for C7: `"TODO !!! buy milk"` parses to priority 3, and a text
with no `!` and inherited default priority 2 parses to priority 2. -/
theorem c7_priority_count_witness :
    (parse_task fxCfg "TODO !!! buy milk" true [] none none []).map
        TaskFields.prio = Except.ok 3 ∧
    (parse_task fxCfg "TODO buy milk" true [] none (some 2) []).map
        TaskFields.prio = Except.ok 2 :=
  ⟨(c7_priority_count fxCfg "Next:" rfl "TODO !!! buy milk" true [] none
      none []).trans (congrArg Except.ok (by decide)),
   (c7_priority_count fxCfg "Next:" rfl "TODO buy milk" true [] none
      (some 2) []).trans (congrArg Except.ok (by decide))⟩

/-- Claim C10: the Field Parser unconditionally calls `.match` on the
compiled next-label pattern, so when the next-label preference is empty
(`_set_preferences` stores `None`) parsing any task text raises an
attribute error; with a configured label, parsing always succeeds. -/
theorem c10_none_next_label_raises :
    set_next_label "" = none ∧
    (∀ (cfg : Config) (text : String) (isopen : Bool) (tags : List String)
       (dd : Option String) (dp : Option Nat) (tks : List TaskNode),
       cfg.next_label_re = none →
       parse_task cfg text isopen tags dd dp tks = Except.error ()) ∧
    (∀ (cfg : Config) (nl : String) (text : String) (isopen : Bool)
       (tags : List String) (dd : Option String) (dp : Option Nat)
       (tks : List TaskNode),
       cfg.next_label_re = some nl →
       exceptOk (parse_task cfg text isopen tags dd dp tks) = true) := by
  refine ⟨rfl, ?_, ?_⟩
  · intro cfg text isopen tags dd dp tks h
    simp [parse_task, h]
  · intro cfg nl text isopen tags dd dp tks h
    simp [parse_task, h, exceptOk]

/-- Witness for C10: with the empty next-label preference, parsing the
plain text `buy milk` errors; with the default configuration it
succeeds. -/
theorem c10_none_next_label_raises_witness :
    parse_task fxCfgNoNext "buy milk" true [] none none [] =
      Except.error () ∧
    exceptOk (parse_task fxCfg "buy milk" true [] none none []) = true :=
  ⟨c10_none_next_label_raises.2.1 fxCfgNoNext "buy milk" true [] none none
     [] rfl,
   c10_none_next_label_raises.2.2 fxCfg "Next:" "buy milk" true [] none
     none [] rfl⟩

/-- Claim C2, counterexample: the claim says a non-task entry's nested
entries are never visited as tasks (the whole branch is pruned).  In the
code the nested entries are tested independently: under `fxCfg`
(`all_checkboxes` on) the paragraph with a plain-bullet non-task
`just a note` whose nested entry is the unchecked checkbox `do stuff`
yields a forest containing `do stuff` as a (top-level) task, so the
branch was not pruned. -/
theorem c2_nontask_pruning_counterexample :
    extract_tasks fxCfg [fxNonTaskPara] none =
      Except.ok [TaskNode.mk ⟨true, true, 0, "9999", "do stuff"⟩ []] := by
  rfl

/-- Claim C2 as amended: a list entry that fails the task test is itself
discarded: processing it only pops the stack entries at its level or
deeper and changes nothing else.  Its nested entries are still visited
from that state and are independently tested, becoming tasks (attached to
the nearest surviving ancestor, or the top level) when they qualify on
their own. -/
theorem c2_nontask_discarded (cfg : Config) (istasklist : Bool)
    (globaltags : List String) (dd : Option String) (st : EState)
    (b : Option Bullet) (l : Nat) (t : String)
    (h : isTaskEntry cfg istasklist b t = false) :
    processItem cfg istasklist globaltags dd st (Item.entry b l t) =
      Except.ok (popToLevel l st) := by
  simp [processItem, h]

/-- Witness for the amended C2: a plain bullet with non-label text is not
a task and is discarded, leaving only the popped state. -/
theorem c2_nontask_discarded_witness :
    processItem fxCfg false [] none ⟨[], []⟩
      (Item.entry (some Bullet.star) 0 "just a note") =
      Except.ok (popToLevel 0 ⟨[], []⟩) :=
  c2_nontask_discarded fxCfg false [] none ⟨[], []⟩ (some Bullet.star) 0
    "just a note" (by decide)

/-- Claim C1, counterexample: the claim says a next-label item is actionable
iff *no* preceding sibling task at the same level is still open.  With
siblings `task A` (open), `task B` (closed), `Next: task C`, the code
consults only the *last* preceding sibling (`tasks[-1]`), which is the
closed `task B`, and therefore marks `Next: task C` actionable even
though the open sibling `task A` precedes it at the same level. -/
theorem c1_actionable_counterexample :
    extract_tasks fxCfg [fxSiblingPara] none =
      Except.ok
        [TaskNode.mk ⟨true, true, 0, "9999", "task A"⟩ [],
         TaskNode.mk ⟨false, true, 0, "9999", "task B"⟩ [],
         TaskNode.mk ⟨true, true, 0, "9999", "Next: task C"⟩ []] := by
  rfl

/-- Claim C1 as amended: a task whose (final) text matches the next-label
pattern is actionable iff the *immediately preceding* sibling task (the
last one, if any) is not still open; a non-matching task is always
actionable.  The claim's two-sibling example is unchanged: with
`["Next: task A" (open), "Next: task B" (open)]` task A is actionable and
task B is not, and with task A closed task B becomes actionable on
re-extraction. -/
theorem c1_actionable_last_sibling :
    (∀ (cfg : Config) (nl : String) (text : String) (isopen : Bool)
       (tags : List String) (dd : Option String) (dp : Option Nat)
       (tks : List TaskNode) (f : TaskFields),
       cfg.next_label_re = some nl →
       parse_task cfg text isopen tags dd dp tks = Except.ok f →
       f.actionable =
         (if nextLabelMatch nl f.description then
            match tks.getLast? with
            | some t => !t.fields.isopen
            | none => true
          else true)) ∧
    extract_tasks fxCfg [fxNextBothOpen] none =
      Except.ok
        [TaskNode.mk ⟨true, true, 0, "9999", "Next: task A"⟩ [],
         TaskNode.mk ⟨true, false, 0, "9999", "Next: task B"⟩ []] ∧
    extract_tasks fxCfg [fxNextAClosed] none =
      Except.ok
        [TaskNode.mk ⟨false, true, 0, "9999", "Next: task A"⟩ [],
         TaskNode.mk ⟨true, true, 0, "9999", "Next: task B"⟩ []] := by
  refine ⟨?_, by rfl, by rfl⟩
  intro cfg nl text isopen tags dd dp tks f h hp
  simp only [parse_task, h] at hp
  rw [Except.ok.injEq] at hp
  subst hp
  rfl

/-- Witness for the amended C1: parsing `Next: go` after an open sibling
yields a non-actionable task. -/
theorem c1_actionable_last_sibling_witness :
    parse_task fxCfg "Next: go" true [] none none [fxOpenNode "x"] =
      Except.ok ⟨true, false, 0, "9999", "Next: go"⟩ ∧
    (⟨true, false, 0, "9999", "Next: go"⟩ : TaskFields).actionable = false :=
  ⟨rfl,
   (c1_actionable_last_sibling.1 fxCfg "Next:" "Next: go" true [] none none
      [fxOpenNode "x"] ⟨true, false, 0, "9999", "Next: go"⟩ rfl rfl).trans
     (by decide)⟩

/-- Claim C3, counterexample: the claim says that when inserting the new
forest fails, the previous row set for the document remains intact.  In
the code `remove_page` deletes the old rows in its own committed
transaction *before* the insert: with a store holding one row for page 5
and a failing insert, the old row is gone and no new row exists. -/
theorem c3_replace_counterexample :
    (index_page fxStore 5 [fxOpenNode "new task"] false).rows = [] ∧
    fxOldRow ∈ fxStore.rows := by
  decide

/-- Claim C3 as amended: the delete of the old rows is committed in its own
transaction before the insert begins; only the insert itself is atomic.
If the insert fails, the store holds exactly the other documents' rows:
every old row of the indexed document is gone, and no row was added. -/
theorem c3_replace_failure_semantics (s : Store) (pid : Nat)
    (forest : List TaskNode) :
    (index_page s pid forest false).rows =
      s.rows.filter (fun r => r.source != pid) ∧
    (∀ r ∈ s.rows, r.source = pid → r ∉ (index_page s pid forest false).rows) ∧
    (∀ r ∈ (index_page s pid forest false).rows, r ∈ s.rows ∧ r.source ≠ pid) := by
  have h : (index_page s pid forest false).rows =
      s.rows.filter (fun r => r.source != pid) := by
    simp only [index_page, removeRows, Bool.if_false_right]
    split <;> rfl
  refine ⟨h, ?_, ?_⟩
  · intro r hr hsrc
    rw [h, List.mem_filter]
    rintro ⟨-, hne⟩
    simp [hsrc] at hne
  · intro r hr
    rw [h, List.mem_filter] at hr
    exact ⟨hr.1, by simpa using hr.2⟩

/-- Witness for the amended C3: the old row of page 5 is absent after a
failed replace. -/
theorem c3_replace_failure_semantics_witness :
    fxOldRow ∉ (index_page fxStore 5 [fxOpenNode "new task"] false).rows :=
  (c3_replace_failure_semantics fxStore 5 [fxOpenNode "new task"]).2.1
    fxOldRow (by decide) rfl

/-- Claim C4, counterexample: the claim says tag matching is
case-insensitive.  `set_tag_filter` lowercases the filter entries, but
the row's tags keep their original case and are matched literally: a row
tagged `Urgent` is invisible under the tag filter `{"Urgent"}`, although
it carries the filtered tag up to case. -/
theorem c4_tagfilter_counterexample :
    filter_item ⟨false, none, (set_tag_filter ["Urgent"] []).1, none⟩
      fxRowUrgent = false ∧
    strLower "Urgent" ∈ fxRowUrgent.tags.map strLower := by
  decide

/-- Claim C4 as amended: the tag filter is OR across the set, and the
no-tags marker combines inclusively with explicit tags; but only the
*filter* side is lowercased: a row is visible (with the other filter
dimensions inactive) iff the no-tags marker is in the filter and the row
has zero tags, or some filter tag's lowercase form occurs *literally*
among the row's case-preserving tags.  (The claim's all-lowercase
examples are unchanged.) -/
theorem c4_tagfilter_lowercase_literal (row : ModelRow)
    (tagsIn : List String) (h1 : tagsIn ≠ []) (h2 : row.isopen = true) :
    filter_item ⟨false, none, (set_tag_filter tagsIn []).1, none⟩ row = true ↔
      ((NO_TAGS ∈ tagsIn.map strLower ∧ row.tags = []) ∨
       ∃ t ∈ tagsIn, strLower t ∈ row.tags) := by
  simp only [filter_item, set_tag_filter, h2, optListTruthy,
    if_neg (by simpa using h1)]
  simp [List.any_eq_true, List.isEmpty_iff, List.mem_map, h1]

/-- Witness for the amended C4: a task with zero tags is visible under
`tagFilter = {"__no_tags__", "urgent"}`. -/
theorem c4_tagfilter_lowercase_literal_witness :
    filter_item
      ⟨false, none, (set_tag_filter ["__no_tags__", "urgent"] []).1, none⟩
      fxRowNoTags = true :=
  (c4_tagfilter_lowercase_literal fxRowNoTags ["__no_tags__", "urgent"]
      (by decide) rfl).mpr (Or.inl (by decide))

/-! ### Helper lemmas about the `date_re` substitution -/

/-- Lemma: `lastCloseSplit` really splits its input at a `]`. -/
theorem lastCloseSplit_eq : ∀ (seg v after : List Char),
    lastCloseSplit seg = some (v, after) → seg = v ++ ']' :: after := by
  intro seg
  induction seg with
  | nil => intro v after h; simp [lastCloseSplit] at h
  | cons c rest ih =>
    intro v after h
    rw [lastCloseSplit] at h
    rcases hr : lastCloseSplit rest with - | p
    · rw [hr] at h
      simp at h
      obtain ⟨rfl, rfl, rfl⟩ := h
      simp
    · rw [hr] at h
      obtain ⟨v', a'⟩ := p
      simp at h
      obtain ⟨rfl, rfl⟩ := h
      simp [ih v' a' hr]

theorem dateFindAux_sound : ∀ (cs accRev b m a : List Char),
    dateFindAux accRev cs = some (b, m, a) →
    b ++ m ++ a = accRev.reverse ++ cs ∧ a.length < cs.length := by
  intro cs
  induction cs with
  | nil => intro accRev b m a h; simp [dateFindAux] at h
  | cons c rest ih =>
    intro accRev b m a h
    simp only [dateFindAux] at h
    split at h
    · rename_i rest2
      split at h
      · rename_i v afterInLine hsplit
        split at h
        · obtain ⟨h1, h2⟩ := ih _ _ _ _ h
          refine ⟨by rw [h1]; simp, ?_⟩
          simp only [List.length_cons] at h2 ⊢
          omega
        · rw [Option.some.injEq, Prod.mk.injEq, Prod.mk.injEq] at h
          obtain ⟨rfl, rfl, rfl⟩ := h
          have hline := lastCloseSplit_eq _ _ _ hsplit
          have hacc : List.takeWhile Char.isWhitespace accRev ++
              List.dropWhile Char.isWhitespace accRev = accRev :=
            List.takeWhile_append_dropWhile Char.isWhitespace accRev
          have hr2 : List.takeWhile (fun x => x != '\n') rest2 ++
              List.dropWhile (fun x => x != '\n') rest2 = rest2 :=
            List.takeWhile_append_dropWhile _ rest2
          constructor
          · conv_rhs => rw [← hr2, hline]
            have hrev : (List.dropWhile Char.isWhitespace accRev).reverse ++
                (List.takeWhile Char.isWhitespace accRev).reverse =
                accRev.reverse := by
              rw [← List.reverse_append, hacc]
            rw [← hrev]
            simp
          · have e1 : (List.takeWhile (fun x => x != '\n') rest2).length +
                (List.dropWhile (fun x => x != '\n') rest2).length =
                rest2.length := by
              rw [← List.length_append, hr2]
            have e2 : (List.takeWhile (fun x => x != '\n') rest2).length =
                v.length + 1 + afterInLine.length := by
              rw [hline]; simp; omega
            simp only [List.length_append, List.length_cons]
            omega
      · obtain ⟨h1, h2⟩ := ih _ _ _ _ h
        refine ⟨by rw [h1]; simp, ?_⟩
        simp only [List.length_cons] at h2 ⊢
        omega
    · obtain ⟨h1, h2⟩ := ih _ _ _ _ h
      refine ⟨by rw [h1]; simp, ?_⟩
      simp only [List.length_cons] at h2 ⊢
      omega

/-- A successful `dateFind` splits the text into
`before ++ matched ++ after`. -/
theorem dateFind_sound (cs b m a : List Char)
    (h : dateFind cs = some (b, m, a)) :
    b ++ m ++ a = cs ∧ a.length < cs.length := by
  have := dateFindAux_sound cs [] b m a h
  simpa using this

/-- Once the date state is set, `dateSubAux` leaves the remaining text
verbatim (the match callback returns `group(0)` unchanged). -/
theorem dateSubAux_some (x : Nat × Nat × Nat) : ∀ (fuel : Nat) (cs : List Char),
    dateSubAux fuel (some x) cs = (some x, cs) := by
  intro fuel
  induction fuel with
  | zero => intro cs; rfl
  | succ n ih =>
    intro cs
    rw [dateSubAux]
    rcases h : dateFind cs with - | ⟨b, m, a⟩
    · rfl
    · have hs := (dateFind_sound cs b m a h).1
      rcases hp : parse_date (String.mk m) with - | ymd <;>
        simp [ih, ← hs]

/-- Lemma: `dateSubAux` does not depend on the fuel once it covers the text
length. -/
theorem dateSubAux_fuel : ∀ (fuel₁ fuel₂ : Nat) (st : Option (Nat × Nat × Nat))
    (cs : List Char), cs.length ≤ fuel₁ → cs.length ≤ fuel₂ →
    dateSubAux fuel₁ st cs = dateSubAux fuel₂ st cs := by
  intro fuel₁
  induction fuel₁ with
  | zero =>
    intro fuel₂ st cs h1 h2
    have : cs = [] := List.eq_nil_of_length_eq_zero (Nat.le_zero.mp h1)
    subst this
    cases fuel₂ <;> rfl
  | succ n ih =>
    intro fuel₂ st cs h1 h2
    rcases fuel₂ with - | m
    · have : cs = [] := List.eq_nil_of_length_eq_zero (Nat.le_zero.mp h2)
      subst this
      rfl
    · rw [dateSubAux, dateSubAux]
      rcases h : dateFind cs with - | ⟨b, mt, a⟩
      · rfl
      · have hlen := (dateFind_sound cs b mt a h).2
        have ha1 : a.length ≤ n := by omega
        have ha2 : a.length ≤ m := by omega
        rcases hp : parse_date (String.mk mt) with - | ymd <;>
          rcases st with - | x <;>
          simp [ih m _ a ha1 ha2]


/-- Full specification of `insertForest`: it appends a block of fresh
rows; every new row has a fresh id and points either at the call's
`parentid` or at another fresh row; a new row with the call's `parentid`
exists iff the forest is non-empty; and within the new block the
`haschildren` flag is correct. -/
theorem insertForest_spec : ∀ (n : Nat) (children : List TaskNode),
    sizeOf children ≤ n → ∀ (page pid : Nat) (s : Store), pid < s.nextid →
    s.nextid ≤ (insertForest page pid children s).nextid ∧
    ∃ delta,
      (insertForest page pid children s).rows = s.rows ++ delta ∧
      (∀ r ∈ delta, s.nextid ≤ r.id ∧
         r.id < (insertForest page pid children s).nextid ∧
         r.parent < (insertForest page pid children s).nextid ∧
         (r.parent = pid ∨ s.nextid ≤ r.parent)) ∧
      ((∃ r ∈ delta, r.parent = pid) ↔ children ≠ []) ∧
      (∀ r ∈ delta, (r.haschildren = true ↔ ∃ x ∈ delta, x.parent = r.id)) := by
  intro n
  induction n with
  | zero =>
    intro children hsz
    exact absurd hsz (by cases children <;> simp)
  | succ n ih =>
    intro children hsz page pid s hpid
    match children with
    | [] =>
      rw [insertForest]
      exact ⟨le_refl _, [], by simp, by simp, by simp, by simp⟩
    | TaskNode.mk f gc :: rest =>
      have hszgc : sizeOf gc ≤ n := by
        simp only [List.cons.sizeOf_spec, TaskNode.mk.sizeOf_spec] at hsz
        omega
      have hszrest : sizeOf rest ≤ n := by
        simp only [List.cons.sizeOf_spec, TaskNode.mk.sizeOf_spec] at hsz
        omega
      set row : TaskRow :=
        ⟨s.nextid, page, pid, !gc.isEmpty, f.isopen, f.actionable, f.prio,
         f.due, f.description⟩ with hrowdef
      set s1 : Store := ⟨s.nextid + 1, s.rows ++ [row]⟩ with hs1def
      set s2 : Store :=
        if gc.isEmpty then s1 else insertForest page s.nextid gc s1
        with hs2def
      have hunfold : insertForest page pid (TaskNode.mk f gc :: rest) s =
          insertForest page pid rest s2 := by
        rw [insertForest]
      rw [hunfold]
      have hs1next : s1.nextid = s.nextid + 1 := rfl
      have hspec2 : s1.nextid ≤ s2.nextid ∧ ∃ d2, s2.rows = s1.rows ++ d2 ∧
          (∀ r ∈ d2, s1.nextid ≤ r.id ∧ r.id < s2.nextid ∧
             r.parent < s2.nextid ∧
             (r.parent = s.nextid ∨ s1.nextid ≤ r.parent)) ∧
          ((∃ r ∈ d2, r.parent = s.nextid) ↔ gc ≠ []) ∧
          (∀ r ∈ d2, (r.haschildren = true ↔ ∃ x ∈ d2, x.parent = r.id)) := by
        by_cases hgce : gc.isEmpty
        · have hgcnil : gc = [] := List.isEmpty_iff.mp hgce
          rw [hs2def, if_pos hgce]
          exact ⟨le_refl _, [], by simp, by simp, by simp [hgcnil], by simp⟩
        · rw [hs2def, if_neg hgce]
          exact ih gc hszgc page s.nextid s1 (by omega)
      obtain ⟨hm2, d2, hrows2, hprops2, hex2, hhc2⟩ := hspec2
      have hpid2 : pid < s2.nextid := by omega
      obtain ⟨hm3, d3, hrows3, hprops3, hex3, hhc3⟩ :=
        ih rest hszrest page pid s2 hpid2
      have hrowparent : row.parent = pid := by rw [hrowdef]
      have hrowid : row.id = s.nextid := by rw [hrowdef]
      refine ⟨by omega, row :: (d2 ++ d3), ?_, ?_, ?_, ?_⟩
      · rw [hrows3, hrows2]
        simp [hs1def]
      · intro r hr
        rcases List.mem_cons.mp hr with rfl | hr
        · exact ⟨le_of_eq hrowid.symm, by omega, by omega, Or.inl hrowparent⟩
        rcases List.mem_append.mp hr with hr | hr
        · obtain ⟨ha, hb, hc, hd⟩ := hprops2 r hr
          have hd' : s.nextid ≤ r.parent := by
            rcases hd with hd | hd <;> omega
          exact ⟨by omega, by omega, by omega, Or.inr hd'⟩
        · obtain ⟨ha, hb, hc, hd⟩ := hprops3 r hr
          refine ⟨by omega, by omega, by omega, ?_⟩
          rcases hd with hd | hd
          · exact Or.inl hd
          · exact Or.inr (by omega)
      · exact ⟨fun _ => by simp, fun _ => ⟨row, List.mem_cons_self _ _, hrowparent⟩⟩
      · intro r hr
        rcases List.mem_cons.mp hr with rfl | hr
        · have hrk : row.haschildren = !gc.isEmpty := by rw [hrowdef]
          rw [hrk, hrowid]
          constructor
          · intro hne
            have hgc : gc ≠ [] := by simpa [List.isEmpty_iff] using hne
            obtain ⟨x, hx, hxp⟩ := hex2.mpr hgc
            exact ⟨x, by simp [hx], hxp⟩
          · rintro ⟨x, hx, hxp⟩
            rcases List.mem_cons.mp hx with rfl | hx
            · rw [hrowparent] at hxp
              exact absurd hxp (by omega)
            rcases List.mem_append.mp hx with hx | hx
            · have hgc : gc ≠ [] := hex2.mp ⟨x, hx, hxp⟩
              simpa [List.isEmpty_iff] using hgc
            · obtain ⟨hxa, -, -, hxd⟩ := hprops3 x hx
              exfalso
              rcases hxd with hxd | hxd <;> omega
        · rcases List.mem_append.mp hr with hr | hr
          · obtain ⟨ha, hb, -, -⟩ := hprops2 r hr
            rw [hhc2 r hr]
            constructor
            · rintro ⟨x, hx, hxp⟩
              exact ⟨x, by simp [hx], hxp⟩
            · rintro ⟨x, hx, hxp⟩
              rcases List.mem_cons.mp hx with rfl | hx
              · rw [hrowparent] at hxp
                exact absurd hxp (by omega)
              rcases List.mem_append.mp hx with hx | hx
              · exact ⟨x, hx, hxp⟩
              · obtain ⟨hxa, -, -, hxd⟩ := hprops3 x hx
                exfalso
                rcases hxd with hxd | hxd <;> omega
          · obtain ⟨ha, hb, -, -⟩ := hprops3 r hr
            rw [hhc3 r hr]
            constructor
            · rintro ⟨x, hx, hxp⟩
              exact ⟨x, by simp [hx], hxp⟩
            · rintro ⟨x, hx, hxp⟩
              rcases List.mem_cons.mp hx with rfl | hx
              · rw [hrowparent] at hxp
                exact absurd hxp (by omega)
              rcases List.mem_append.mp hx with hx | hx
              · obtain ⟨-, -, hxc, -⟩ := hprops2 x hx
                exact absurd hxp (by omega)
              · exact ⟨x, hx, hxp⟩


/-- Claim C8: after a forest is inserted for a document into a well-formed
store satisfying the invariant, every row's `haschildren` flag is true iff
some row has it as parent (`childrenOf(row.id)` non-empty) — and the store
stays well-formed, so the invariant holds at every observable point as
documents are indexed one after another. -/
theorem c8_haschildren_iff (page : Nat) (forest : List TaskNode) (s : Store)
    (hwf : storeWF s) (hinv : storeInv s) :
    storeInv (insertForest page 0 forest s) ∧
    storeWF (insertForest page 0 forest s) := by
  obtain ⟨hwf1, hwf2⟩ := hwf
  obtain ⟨hmono, delta, hrows, hprops, -, hhc⟩ :=
    insertForest_spec (sizeOf forest) forest (le_refl _) page 0 s (by omega)
  constructor
  · intro r hr
    rw [hrows] at hr
    rcases List.mem_append.mp hr with hr | hr
    · obtain ⟨hb1, hb2, -⟩ := hwf2 r hr
      have hfilter : childrenOf (insertForest page 0 forest s) r.id =
          childrenOf s r.id := by
        unfold childrenOf
        rw [hrows, List.filter_append]
        have hnil : delta.filter (fun x => x.parent == r.id) = [] := by
          rw [List.filter_eq_nil_iff]
          intro x hx
          obtain ⟨hxa, -, -, hxd⟩ := hprops x hx
          simp only [beq_iff_eq]
          rcases hxd with hxd | hxd <;> omega
        rw [hnil, List.append_nil]
      rw [hfilter]
      exact hinv r hr
    · obtain ⟨ha, hb, -, -⟩ := hprops r hr
      have hfilter : childrenOf (insertForest page 0 forest s) r.id =
          delta.filter (fun x => x.parent == r.id) := by
        unfold childrenOf
        rw [hrows, List.filter_append]
        have hnil : s.rows.filter (fun x => x.parent == r.id) = [] := by
          rw [List.filter_eq_nil_iff]
          intro x hx
          obtain ⟨-, -, hx3⟩ := hwf2 x hx
          simp only [beq_iff_eq]
          omega
        rw [hnil, List.nil_append]
      rw [hfilter]
      have hiff := hhc r hr
      cases hch : r.haschildren
      · rw [hch] at hiff
        have hne : ¬ ∃ x ∈ delta, x.parent = r.id := by
          rw [← hiff]; simp
        have hnil : delta.filter (fun x => x.parent == r.id) = [] := by
          rw [List.filter_eq_nil_iff]
          intro x hx hbx
          exact hne ⟨x, hx, by simpa using hbx⟩
        simp [hnil]
      · obtain ⟨x, hx, hxp⟩ := hiff.mp (by rw [hch])
        have hmem : x ∈ delta.filter (fun y => y.parent == r.id) :=
          List.mem_filter.mpr ⟨hx, by simp [hxp]⟩
        rcases hfe : delta.filter (fun y => y.parent == r.id) with - | ⟨y, ys⟩
        · rw [hfe] at hmem; simp at hmem
        · simp [hfe]
  · refine ⟨by omega, ?_⟩
    intro r hr
    rw [hrows] at hr
    rcases List.mem_append.mp hr with hr | hr
    · obtain ⟨h1, h2, h3⟩ := hwf2 r hr
      exact ⟨h1, by omega, by omega⟩
    · obtain ⟨ha, hb, hc, -⟩ := hprops r hr
      exact ⟨by omega, hb, hc⟩

/-- Witness for C8: inserting a two-level forest into the empty store
preserves the invariant and well-formedness. -/
theorem c8_haschildren_iff_witness :
    storeInv (insertForest 7 0 fxForest ⟨1, []⟩) ∧
    storeWF (insertForest 7 0 fxForest ⟨1, []⟩) :=
  c8_haschildren_iff 7 fxForest ⟨1, []⟩ (by decide) (by decide)

/-- Claim C6, counterexample: the claim says that when parsing of the (first)
directive fails, the directive text is left verbatim and the due date
falls back to the inherited default or the sentinel.  In the code,
`date_re.sub` keeps scanning after a failed match: for the text
`a [d:bad]\nb [d:2024-03-01]` the first directive `[d:bad]` fails to
parse, yet the due date is taken from the later occurrence and that
occurrence is removed from the description — neither the fallback date
nor the unchanged description promised by the claim. -/
theorem c6_date_counterexample :
    parse_task fxCfg "a [d:bad]\nb [d:2024-03-01]" true [] none none [] =
      Except.ok ⟨true, true, 0, "2024-03-01", "a [d:bad]\nb"⟩ := by
  rfl

/-- Claim C6 as amended: the due date is taken from the first *parsable*
`[d:...]` occurrence: with no match the text is unchanged; a first match
that parses is removed from the description (the remainder is left
verbatim) and sets the date; a first match that fails to parse is left
verbatim and scanning continues on the remainder — the inherited default
(else the sentinel) is used only when no occurrence parses.  Extraction
is never fatal, and the claim's single-directive examples are unchanged:
`call back [d:2024-03-01]` yields due `2024-03-01` with the directive
removed, and `call back [d:notadate]` yields the sentinel (or the
inherited default) with the description unchanged. -/
theorem c6_date_first_parsable :
    (∀ cs : List Char, dateFind cs = none → date_sub cs = (none, cs)) ∧
    (∀ (cs b m a : List Char) (ymd : Nat × Nat × Nat),
      dateFind cs = some (b, m, a) → parse_date (String.mk m) = some ymd →
      date_sub cs = (some ymd, b ++ a)) ∧
    (∀ cs b m a : List Char,
      dateFind cs = some (b, m, a) → parse_date (String.mk m) = none →
      date_sub cs = ((dateSubAux a.length none a).1,
                     b ++ m ++ (dateSubAux a.length none a).2)) ∧
    parse_task fxCfg "call back [d:2024-03-01]" true [] none none [] =
      Except.ok ⟨true, true, 0, "2024-03-01", "call back"⟩ ∧
    parse_task fxCfg "call back [d:notadate]" true [] none none [] =
      Except.ok ⟨true, true, 0, "9999", "call back [d:notadate]"⟩ ∧
    parse_task fxCfg "call back [d:notadate]" true [] (some "2024-12-31")
        none [] =
      Except.ok ⟨true, true, 0, "2024-12-31", "call back [d:notadate]"⟩ := by
  refine ⟨?_, ?_, ?_, by rfl, by rfl, by rfl⟩
  · intro cs h
    rcases hl : cs.length with - | n
    · have : cs = [] := List.eq_nil_of_length_eq_zero hl
      subst this; rfl
    · rw [date_sub, hl, dateSubAux, h]
  · intro cs b m a ymd h hp
    rcases hl : cs.length with - | n
    · have : cs = [] := List.eq_nil_of_length_eq_zero hl
      subst this; simp [dateFind, dateFindAux] at h
    · rw [date_sub, hl, dateSubAux, h]
      simp [hp, dateSubAux_some]
  · intro cs b m a h hp
    rcases hl : cs.length with - | n
    · have : cs = [] := List.eq_nil_of_length_eq_zero hl
      subst this; simp [dateFind, dateFindAux] at h
    · have hlen := (dateFind_sound cs b m a h).2
      rw [date_sub, hl, dateSubAux, h]
      have hf : dateSubAux n none a = dateSubAux a.length none a :=
        dateSubAux_fuel n a.length none a (by omega) (by omega)
      simp [hp, hf]

/-- Witness for the amended C6: the first (and only) match of
`call back [d:2024-03-01]` parses, so the date is extracted and the match
removed. -/
theorem c6_date_first_parsable_witness :
    date_sub "call back [d:2024-03-01]".toList =
      (some (2024, 3, 1), "call back".toList) := by
  have := c6_date_first_parsable.2.1 "call back [d:2024-03-01]".toList
    "call back".toList " [d:2024-03-01]".toList [] (2024, 3, 1)
    (by rfl) (by rfl)
  simpa using this


/-! ### Helper lemmas for the visibility-propagation pass -/

/-- A successful `rowById` lookup returns a member row with the looked-up
id. -/
theorem rowById_mem {rows : List ModelRow} {i : Nat} {pr : ModelRow}
    (h : rowById rows i = some pr) : pr ∈ rows ∧ pr.taskid = i := by
  unfold rowById at h
  refine ⟨List.mem_of_find?_eq_some h, ?_⟩
  have h2 := List.find?_some h
  simpa using h2

/-- With distinct ids, looking up a member row's id finds that row. -/
theorem rowById_eq : ∀ (rows : List ModelRow),
    List.Pairwise (fun x y => x.taskid ≠ y.taskid) rows →
    ∀ r ∈ rows, rowById rows r.taskid = some r := by
  intro rows
  induction rows with
  | nil => simp
  | cons a l ih =>
    intro hp r hr
    obtain ⟨hhead, htail⟩ := List.pairwise_cons.mp hp
    rcases List.mem_cons.mp hr with rfl | hr
    · simp [rowById]
    · have hne : a.taskid ≠ r.taskid := hhead r hr
      have hrec := ih htail r hr
      unfold rowById at hrec ⊢
      rw [List.find?_cons_of_neg _ (by simpa using hne)]
      exact hrec

/-- With positive ids, id `0` (the top level) resolves to no row. -/
theorem rowById_zero (rows : List ModelRow)
    (h1 : ∀ r ∈ rows, 1 ≤ r.taskid) : rowById rows 0 = none := by
  unfold rowById
  rw [List.find?_eq_none]
  intro x hx
  have := h1 x hx
  simp only [beq_iff_eq]
  omega

/-- Lemma: `markUp` marks exactly the ancestor chain, leaving everything else
unchanged. -/
theorem markUp_spec (rows : List ModelRow) : ∀ (fuel : Nat) (vis : Nat → Bool)
    (pid j : Nat),
    markUp rows fuel vis pid j = true ↔
      (vis j = true ∨ j ∈ ancestors rows fuel pid) := by
  intro fuel
  induction fuel with
  | zero => intro vis pid j; simp [markUp, ancestors]
  | succ n ih =>
    intro vis pid j
    rw [markUp, ancestors]
    rcases h : rowById rows pid with - | pr
    · simp
    · rw [ih]
      by_cases hj : j = pid
      · subst hj; simp
      · simp [hj]

/-- The ancestor chain does not depend on the fuel once it covers the
starting id (parent ids are strictly smaller than the child id). -/
theorem ancestors_fuel (rows : List ModelRow)
    (hA : ∀ r ∈ rows, 1 ≤ r.taskid ∧ r.parent < r.taskid) :
    ∀ (fuel₁ fuel₂ pid : Nat), pid ≤ fuel₁ → pid ≤ fuel₂ →
    ancestors rows fuel₁ pid = ancestors rows fuel₂ pid := by
  intro fuel₁
  induction fuel₁ with
  | zero =>
    intro fuel₂ pid h1 h2
    have hz : pid = 0 := by omega
    subst hz
    have h0 : rowById rows 0 = none :=
      rowById_zero rows (fun r hr => (hA r hr).1)
    cases fuel₂ <;> simp [ancestors, h0]
  | succ n ih =>
    intro fuel₂ pid h1 h2
    rcases Nat.eq_zero_or_pos pid with rfl | hpos
    · have h0 : rowById rows 0 = none :=
        rowById_zero rows (fun r hr => (hA r hr).1)
      cases fuel₂ <;> simp [ancestors, h0]
    · rcases fuel₂ with - | m
      · omega
      · rw [ancestors, ancestors]
        rcases h : rowById rows pid with - | pr
        · simp only [h]
        · simp only [h]
          obtain ⟨hmem, hid⟩ := rowById_mem h
          have hlt : pr.parent < pid := by
            have := (hA pr hmem).2; omega
          rw [ih m pr.parent (by omega) (by omega)]

/-- The ancestor chain of an element of an ancestor chain is contained in
the original chain. -/
theorem anc_chain_sub (rows : List ModelRow)
    (hA : ∀ r ∈ rows, 1 ≤ r.taskid ∧ r.parent < r.taskid) :
    ∀ (pid : Nat), ∀ a ∈ ancestors rows pid pid,
      ∀ b ∈ ancestors rows a a, b ∈ ancestors rows pid pid := by
  intro pid
  induction pid using Nat.strong_induction_on with
  | _ pid ih =>
    intro a ha b hb
    rcases Nat.eq_zero_or_pos pid with rfl | hpos
    · simp [ancestors] at ha
    · obtain ⟨k, rfl⟩ : ∃ k, pid = k + 1 := ⟨pid - 1, by omega⟩
      rw [ancestors] at ha ⊢
      rcases h : rowById rows (k + 1) with - | pr
      · simp only [h] at ha; simp at ha
      · simp only [h] at ha ⊢
        obtain ⟨hmem, hid⟩ := rowById_mem h
        have hppar : pr.parent < k + 1 := by
          have := (hA pr hmem).2; omega
        have htail : ancestors rows k pr.parent =
            ancestors rows pr.parent pr.parent :=
          ancestors_fuel rows hA k pr.parent pr.parent (by omega) (le_refl _)
        rcases List.mem_cons.mp ha with rfl | ha'
        · rw [ancestors] at hb
          simp only [h] at hb
          exact hb
        · rw [htail] at ha'
          have hsub := ih pr.parent (by omega) a ha' b hb
          rw [htail]
          exact List.mem_cons_of_mem _ hsub


/-- Ancestor chains of already-processed rows stay among the processed
ids: if every processed row's parent is `0` or processed, the whole chain
of a processed id is processed. -/
theorem anc_in_done (rows done : List ModelRow)
    (hA : ∀ r ∈ rows, 1 ≤ r.taskid ∧ r.parent < r.taskid)
    (hdis : List.Pairwise (fun x y => x.taskid ≠ y.taskid) rows)
    (hsub : ∀ x ∈ done, x ∈ rows)
    (hdone : ∀ x ∈ done, x.parent = 0 ∨ x.parent ∈ done.map ModelRow.taskid) :
    ∀ pid : Nat, (pid = 0 ∨ pid ∈ done.map ModelRow.taskid) →
      ∀ a ∈ ancestors rows pid pid, a ∈ done.map ModelRow.taskid := by
  intro pid
  induction pid using Nat.strong_induction_on with
  | _ pid ih =>
    intro hpid a ha
    rcases hpid with rfl | hpid
    · simp [ancestors] at ha
    · obtain ⟨x, hx, hxid⟩ := List.mem_map.mp hpid
      have hxrows := hsub x hx
      have hfind : rowById rows pid = some x := by
        rw [← hxid]
        exact rowById_eq rows hdis x hxrows
      rcases Nat.eq_zero_or_pos pid with rfl | hpos
      · simp [ancestors] at ha
      obtain ⟨k, rfl⟩ : ∃ k, pid = k + 1 := ⟨pid - 1, by omega⟩
      rw [ancestors] at ha
      simp only [hfind] at ha
      have hxpar : x.parent < k + 1 := by
        have := (hA x hxrows).2
        omega
      rcases List.mem_cons.mp ha with rfl | ha'
      · exact hpid
      · have htail : ancestors rows k x.parent =
            ancestors rows x.parent x.parent :=
          ancestors_fuel rows hA k x.parent x.parent (by omega) (le_refl _)
        rw [htail] at ha'
        exact ih x.parent (by omega) (hdone x hx) a ha'

/-- The invariant of the `foreach(filter)` pass: starting from a state in
which every visible id is a processed id and visibility is closed under
taking ancestors, processing the remaining rows (whose parents have all
been seen) results in a visibility map closed under taking ancestors. -/
theorem eval_filter_master (fs : FilterState) (rows : List ModelRow)
    (hA : ∀ r ∈ rows, 1 ≤ r.taskid ∧ r.parent < r.taskid)
    (hdis : List.Pairwise (fun x y => x.taskid ≠ y.taskid) rows) :
    ∀ (todo done : List ModelRow) (vis : Nat → Bool),
      rows = done ++ todo →
      parentSeenB ((done.map ModelRow.taskid).reverse) todo = true →
      (∀ x ∈ done, x.parent = 0 ∨ x.parent ∈ done.map ModelRow.taskid) →
      (∀ j, vis j = true → j ∈ done.map ModelRow.taskid) →
      (∀ j, vis j = true → ∀ a ∈ ancestors rows j j, vis a = true) →
      (∀ j, (todo.foldl (evalStep fs rows) vis) j = true →
         ∀ a ∈ ancestors rows j j,
           (todo.foldl (evalStep fs rows) vis) a = true) := by
  intro todo
  induction todo with
  | nil =>
    intro done vis hrows hseen hdone hJ1 hJ2
    simpa using hJ2
  | cons z todo ihtodo =>
    intro done vis hrows hseen hdone hJ1 hJ2
    rw [List.foldl_cons]
    -- decompose the pre-order hypothesis
    rw [parentSeenB, Bool.and_eq_true] at hseen
    obtain ⟨hzseen, hseen'⟩ := hseen
    have hz : z.parent = 0 ∨ z.parent ∈ done.map ModelRow.taskid := by
      rcases Bool.or_eq_true _ _ |>.mp hzseen with h | h
      · exact Or.inl (by simpa using h)
      · exact Or.inr (by simpa using h)
    -- z is a row, and its id is fresh among the processed ids
    have hzrows : z ∈ rows := by
      rw [hrows]; exact List.mem_append_right _ (List.mem_cons_self _ _)
    have hsubdone : ∀ x ∈ done, x ∈ rows := by
      intro x hx
      rw [hrows]; exact List.mem_append_left _ hx
    have hfresh : z.taskid ∉ done.map ModelRow.taskid := by
      intro hmem
      obtain ⟨x, hx, hxid⟩ := List.mem_map.mp hmem
      have hpw := hdis
      rw [hrows] at hpw
      have := ((List.pairwise_append.mp hpw).2.2) x hx z
        (List.mem_cons_self _ _)
      exact this hxid
    -- the ancestor chain of z is among the processed ids
    have hchain : ∀ a ∈ ancestors rows z.parent z.parent,
        a ∈ done.map ModelRow.taskid :=
      anc_in_done rows done hA hdis hsubdone hdone z.parent hz
    -- the chain of z's own id
    have hzpos : 1 ≤ z.taskid := (hA z hzrows).1
    have hzpar : z.parent < z.taskid := (hA z hzrows).2
    have hzchain : ancestors rows z.taskid z.taskid =
        z.taskid :: ancestors rows z.parent z.parent := by
      obtain ⟨k, hk⟩ : ∃ k, z.taskid = k + 1 := ⟨z.taskid - 1, by omega⟩
      rw [hk, ancestors]
      have hfind : rowById rows z.taskid = some z :=
        rowById_eq rows hdis z hzrows
      rw [hk] at hfind
      simp only [hfind]
      rw [ancestors_fuel rows hA k z.parent z.parent (by omega) (le_refl _)]
    -- characterize one evaluation step
    have hstep : ∀ j, (evalStep fs rows vis z) j = true ↔
        ((if j = z.taskid then filter_item fs z
          else vis j) = true ∨
         (filter_item fs z = true ∧
          j ∈ ancestors rows z.parent z.parent)) := by
      intro j
      unfold evalStep
      cases hb : filter_item fs z
      · simp
      · simp [markUp_spec]
    -- the new state satisfies both invariants
    have hJ1' : ∀ j, (evalStep fs rows vis z) j = true →
        j ∈ (done ++ [z]).map ModelRow.taskid := by
      intro j hj
      rw [hstep] at hj
      simp only [List.map_append, List.map_cons, List.map_nil]
      rcases hj with hj | ⟨-, hj⟩
      · by_cases hjz : j = z.taskid
        · subst hjz; simp
        · rw [if_neg hjz] at hj
          exact List.mem_append_left _ (hJ1 j hj)
      · exact List.mem_append_left _ (hchain j hj)
    have hJ2' : ∀ j, (evalStep fs rows vis z) j = true →
        ∀ a ∈ ancestors rows j j, (evalStep fs rows vis z) a = true := by
      intro j hj a ha
      rw [hstep] at hj ⊢
      by_cases hjz : j = z.taskid
      · subst hjz
        rw [if_pos rfl] at hj
        rw [hzchain] at ha
        rcases hj with hj | ⟨hj, -⟩
        all_goals {
          rcases List.mem_cons.mp ha with rfl | ha'
          · exact Or.inl (by rw [if_pos rfl]; exact hj)
          · exact Or.inr ⟨hj, ha'⟩
        }
      · rw [if_neg hjz] at hj
        rcases hj with hj | ⟨hb, hj⟩
        · -- j was already visible: its chain was already visible
          have hold := hJ2 j hj a ha
          by_cases haz : a = z.taskid
          · exfalso
            have : a ∈ done.map ModelRow.taskid := hJ1 a hold
            rw [haz] at this
            exact hfresh this
          · exact Or.inl (by rw [if_neg haz]; exact hold)
        · -- j is on z's marked chain: a is on it as well
          have hasub := anc_chain_sub rows hA z.parent j hj a ha
          exact Or.inr ⟨hb, hasub⟩
    have hdone' : ∀ x ∈ done ++ [z],
        x.parent = 0 ∨ x.parent ∈ (done ++ [z]).map ModelRow.taskid := by
      intro x hx
      simp only [List.map_append, List.map_cons, List.map_nil]
      rcases List.mem_append.mp hx with hx | hx
      · rcases hdone x hx with h | h
        · exact Or.inl h
        · exact Or.inr (List.mem_append_left _ h)
      · have : x = z := by simpa using hx
        subst this
        rcases hz with h | h
        · exact Or.inl h
        · exact Or.inr (List.mem_append_left _ h)
    have hseenNext : parentSeenB (((done ++ [z]).map ModelRow.taskid).reverse)
        todo = true := by
      simpa using hseen'
    exact ihtodo (done ++ [z]) (evalStep fs rows vis z)
      (by rw [hrows]; simp) hseenNext hdone' hJ1' hJ2'



/-- Claim C5: after the `_eval_filter` pass over the tree model (rows in
depth-first order with positive, distinct ids whose parents precede
them), every ancestor — up to the root, at any depth — of a visible row
is visible as well. -/
theorem c5_visibility_propagation (fs : FilterState) (rows : List ModelRow)
    (hA : ∀ r ∈ rows, 1 ≤ r.taskid ∧ r.parent < r.taskid)
    (hdis : List.Pairwise (fun x y => x.taskid ≠ y.taskid) rows)
    (hseen : parentSeenB [] rows = true) :
    ∀ r ∈ rows, eval_filter fs rows r.taskid = true →
      ∀ a ∈ ancestors rows r.parent r.parent,
        eval_filter fs rows a = true := by
  intro r hr hvis a ha
  unfold eval_filter at hvis ⊢
  have hmaster := eval_filter_master fs rows hA hdis rows [] (fun _ => false)
    (by simp) (by simpa using hseen) (by simp) (by simp) (by simp)
  have hrpos : 1 ≤ r.taskid := (hA r hr).1
  have hrpar : r.parent < r.taskid := (hA r hr).2
  have hchain : ancestors rows r.taskid r.taskid =
      r.taskid :: ancestors rows r.parent r.parent := by
    obtain ⟨k, hk⟩ : ∃ k, r.taskid = k + 1 := ⟨r.taskid - 1, by omega⟩
    rw [hk, ancestors]
    have hfind : rowById rows r.taskid = some r := rowById_eq rows hdis r hr
    rw [hk] at hfind
    simp only [hfind]
    rw [ancestors_fuel rows hA k r.parent r.parent (by omega) (le_refl _)]
  exact hmaster r.taskid hvis a
    (by rw [hchain]; exact List.mem_cons_of_mem _ ha)

/-- Witness for C5: in the `root -> child -> grandchild` model with a
text filter matching only the grandchild, all three rows are visible —
the two ancestors by the propagation theorem. -/
theorem c5_visibility_propagation_witness :
    eval_filter fxDeepFs fxDeepRows 3 = true ∧
    eval_filter fxDeepFs fxDeepRows 2 = true ∧
    eval_filter fxDeepFs fxDeepRows 1 = true := by
  refine ⟨by decide, ?_, ?_⟩
  · exact c5_visibility_propagation fxDeepFs fxDeepRows (by decide)
      (by decide) (by decide)
      ⟨3, 2, true, true, 0, "grand match", "9999", "pg", []⟩
      (by decide) (by decide) 2 (by decide)
  · exact c5_visibility_propagation fxDeepFs fxDeepRows (by decide)
      (by decide) (by decide)
      ⟨3, 2, true, true, 0, "grand match", "9999", "pg", []⟩
      (by decide) (by decide) 1 (by decide)


end ZimTasklist
